import Mathlib

/-!
# Proof-of-work block chain (main.go)

A shallow embedding of main.go. Byte slices are lists of bytes, Go int and
int64 values are integers (the conversions to unsigned words are explicit,
modulo 2^64), big.Int values are integers, and the package-level variable
difficulty as well as the clock read by time.Now are explicit arguments of
every function that reads them. Console output is not modelled.

Each function of main.go comes first as the value it returns when it returns.
The namespace Exec then gives the calls as executed: the panic of big.Int.Lsh
for a shift amount of 2^63 bits or more ends a call without a result, and Run
works on the memory that holds its block. The lemmas Exec_NewProofOfWork_some,
Exec_Run_eq and Exec_NewBlock_eq relate the two.
-/

namespace Blockchain

/-- Go byte slice. -/
abbrev Bytes := List UInt8

/-! ## crypto/sha256 -/

namespace sha256

/-- Round constants of SHA-256 (FIPS 180-4, section 4.2.2). -/
def K : List Nat := [
  0x428a2f98, 0x71374491, 0xb5c0fbcf, 0xe9b5dba5, 0x3956c25b, 0x59f111f1, 0x923f82a4, 0xab1c5ed5,
  0xd807aa98, 0x12835b01, 0x243185be, 0x550c7dc3, 0x72be5d74, 0x80deb1fe, 0x9bdc06a7, 0xc19bf174,
  0xe49b69c1, 0xefbe4786, 0x0fc19dc6, 0x240ca1cc, 0x2de92c6f, 0x4a7484aa, 0x5cb0a9dc, 0x76f988da,
  0x983e5152, 0xa831c66d, 0xb00327c8, 0xbf597fc7, 0xc6e00bf3, 0xd5a79147, 0x06ca6351, 0x14292967,
  0x27b70a85, 0x2e1b2138, 0x4d2c6dfc, 0x53380d13, 0x650a7354, 0x766a0abb, 0x81c2c92e, 0x92722c85,
  0xa2bfe8a1, 0xa81a664b, 0xc24b8b70, 0xc76c51a3, 0xd192e819, 0xd6990624, 0xf40e3585, 0x106aa070,
  0x19a4c116, 0x1e376c08, 0x2748774c, 0x34b0bcb5, 0x391c0cb3, 0x4ed8aa4a, 0x5b9cca4f, 0x682e6ff3,
  0x748f82ee, 0x78a5636f, 0x84c87814, 0x8cc70208, 0x90befffa, 0xa4506ceb, 0xbef9a3f7, 0xc67178f2]

/-- Eight 32-bit working words, each kept below 2^32. -/
structure Digest where
  h0 : Nat
  h1 : Nat
  h2 : Nat
  h3 : Nat
  h4 : Nat
  h5 : Nat
  h6 : Nat
  h7 : Nat

/-- Initial hash value of SHA-256 (FIPS 180-4, section 5.3.3). -/
def init : Digest :=
  ⟨0x6a09e667, 0xbb67ae85, 0x3c6ef372, 0xa54ff53a, 0x510e527f, 0x9b05688c, 0x1f83d9ab, 0x5be0cd19⟩

/-- Rotate a 32-bit word right by n bits. -/
def rotr (x n : Nat) : Nat := ((x >>> n) ||| (x <<< (32 - n))) % 2 ^ 32

/-- Message schedule, newest word first: extends the 16 block words by n further words. -/
def schedule : Nat → List Nat → List Nat
  | 0, w => w
  | n + 1, w =>
    let w2 := w.getD 1 0
    let w7 := w.getD 6 0
    let w15 := w.getD 14 0
    let w16 := w.getD 15 0
    let s0 := rotr w15 7 ^^^ rotr w15 18 ^^^ (w15 >>> 3)
    let s1 := rotr w2 17 ^^^ rotr w2 19 ^^^ (w2 >>> 10)
    schedule n (((w16 + s0 + w7 + s1) % 2 ^ 32) :: w)

/-- One compression round with constant kw.1 and schedule word kw.2. -/
def round (s : Digest) (kw : Nat × Nat) : Digest :=
  let S1 := rotr s.h4 6 ^^^ rotr s.h4 11 ^^^ rotr s.h4 25
  let ch := (s.h4 &&& s.h5) ^^^ ((s.h4 ^^^ 0xffffffff) &&& s.h6)
  let t1 := (s.h7 + S1 + ch + kw.1 + kw.2) % 2 ^ 32
  let S0 := rotr s.h0 2 ^^^ rotr s.h0 13 ^^^ rotr s.h0 22
  let maj := (s.h0 &&& s.h1) ^^^ (s.h0 &&& s.h2) ^^^ (s.h1 &&& s.h2)
  let t2 := (S0 + maj) % 2 ^ 32
  ⟨(t1 + t2) % 2 ^ 32, s.h0, s.h1, s.h2, (s.h3 + t1) % 2 ^ 32, s.h4, s.h5, s.h6⟩

/-- Reads n big-endian 32-bit words from a list of byte values. -/
def words : Nat → List Nat → List Nat
  | 0, _ => []
  | n + 1, b =>
    (b.getD 0 0 * 2 ^ 24 + b.getD 1 0 * 2 ^ 16 + b.getD 2 0 * 2 ^ 8 + b.getD 3 0)
      :: words n (b.drop 4)

/-- Compression of one 64-byte block into the running hash value. -/
def block (s : Digest) (chunk : List Nat) : Digest :=
  let w := (schedule 48 (words 16 chunk).reverse).reverse
  let r := (K.zip w).foldl round s
  ⟨(s.h0 + r.h0) % 2 ^ 32, (s.h1 + r.h1) % 2 ^ 32, (s.h2 + r.h2) % 2 ^ 32,
   (s.h3 + r.h3) % 2 ^ 32, (s.h4 + r.h4) % 2 ^ 32, (s.h5 + r.h5) % 2 ^ 32,
   (s.h6 + r.h6) % 2 ^ 32, (s.h7 + r.h7) % 2 ^ 32⟩

/-- Compression of n consecutive 64-byte blocks. -/
def blocks : Nat → Digest → List Nat → Digest
  | 0, s, _ => s
  | n + 1, s, p => blocks n (block s (p.take 64)) (p.drop 64)

/-- Big-endian 8-byte rendering of the message length in bits. -/
def be64 (n : Nat) : List Nat :=
  [n >>> 56 % 256, n >>> 48 % 256, n >>> 40 % 256, n >>> 32 % 256,
   n >>> 24 % 256, n >>> 16 % 256, n >>> 8 % 256, n % 256]

/-- Padding: a 0x80 byte, zero bytes up to 56 mod 64, then the bit length. -/
def pad (msg : List Nat) : List Nat :=
  msg ++ 0x80 :: List.replicate ((119 - msg.length % 64) % 64) 0
    ++ be64 (msg.length * 8 % 2 ^ 64)

/-- Big-endian 4-byte rendering of a 32-bit word. -/
def be32 (w : Nat) : Bytes :=
  [UInt8.ofNat (w >>> 24), UInt8.ofNat (w >>> 16), UInt8.ofNat (w >>> 8), UInt8.ofNat w]

/-- Go crypto/sha256.Sum256: the 32-byte SHA-256 digest of data. -/
def Sum256 (data : Bytes) : Bytes :=
  let p := pad (data.map UInt8.toNat)
  let d := blocks (p.length / 64) init p
  be32 d.h0 ++ be32 d.h1 ++ be32 d.h2 ++ be32 d.h3 ++ be32 d.h4 ++ be32 d.h5 ++ be32 d.h6 ++ be32 d.h7

end sha256

/-! ## strconv, bytes and math/big -/

namespace strconv

/-- Digit alphabet of strconv: 0123456789abcdefghijklmnopqrstuvwxyz. -/
def digits : Bytes :=
  [48, 49, 50, 51, 52, 53, 54, 55, 56, 57,
   97, 98, 99, 100, 101, 102, 103, 104, 105, 106, 107, 108, 109,
   110, 111, 112, 113, 114, 115, 116, 117, 118, 119, 120, 121, 122]

/-- Conversion uint64(i) of a signed value: reduction modulo 2^64. -/
def uint64 (i : Int) : Nat := (i % 18446744073709551616).toNat

/-- Test x&(x-1) == 0 used by formatBits. -/
def isPowerOfTwo (x : Nat) : Bool := x &&& (x - 1) == 0

/-- Go bits.TrailingZeros on a non-zero word, by at most n halvings. -/
def trailingZeros : Nat → Nat → Nat
  | 0, _ => 0
  | n + 1, x => if x % 2 = 0 ∧ x ≠ 0 then trailingZeros n (x / 2) + 1 else 0

/-- Power-of-two branch of formatBits: while u >= b, the digit u&m is written in
front of a and u is shifted right; then the last digit is written. The count n
bounds the passes of the loop by the bytes that the 65-byte buffer of formatBits
leaves for them (64); a word below 2^64 needs fewer for every base >= 2. -/
def formatBitsShift (shift b m : Nat) : Nat → Nat → Bytes → Bytes
  | 0, u, a => digits.getD u 0 :: a
  | n + 1, u, a =>
    if b ≤ u then formatBitsShift shift b m n (u >>> shift) (digits.getD (u &&& m) 0 :: a)
    else digits.getD u 0 :: a

/-- General branch of formatBits: while u >= b, q = u / b, the digit u - q*b is
written in front of a and u becomes q; then the last digit is written. The
count n bounds the passes of the loop as in formatBitsShift. -/
def formatBitsDiv (b : Nat) : Nat → Nat → Bytes → Bytes
  | 0, u, a => digits.getD u 0 :: a
  | n + 1, u, a =>
    if b ≤ u then formatBitsDiv b n (u / b) (digits.getD (u - u / b * b) 0 :: a)
    else digits.getD u 0 :: a

/-- Go strconv.formatBits without the append destination: u is negated modulo
2^64 when neg is set, the digits are produced from the right, and a minus sign
is put in front when neg is set. -/
def formatBits (u : Nat) (base : Nat) (neg : Bool) : Bytes :=
  let u := if neg then (18446744073709551616 - u) % 18446744073709551616 else u
  let a :=
    if isPowerOfTwo base then
      formatBitsShift (trailingZeros 64 base &&& 7) base (base - 1) 64 u []
    else formatBitsDiv base 64 u []
  if neg then 45 :: a else a

/-- Go strconv.FormatInt(i, base) for an int64 value i, as bytes. -/
def FormatInt (i : Int) (base : Nat) : Bytes :=
  formatBits (uint64 i) base (decide (i < 0))

end strconv

/-- Go bytes.Join: the elements of s with sep between consecutive elements. -/
def bytesJoin (s : List Bytes) (sep : Bytes) : Bytes :=
  match s with
  | [] => []
  | v :: rest => rest.foldl (fun b w => b ++ sep ++ w) v

/-- Go big.Int.SetBytes: buf read as a big-endian unsigned integer. -/
def SetBytes (buf : Bytes) : Int :=
  Int.ofNat (buf.foldl (fun acc x => acc * 256 + x.toNat) 0)

/-- Go big.Int.Cmp: -1 if x < y, 0 if x == y, +1 if x > y. -/
def Cmp (x y : Int) : Int :=
  if x < y then -1 else if x = y then 0 else 1

/-- Go big.Int.Lsh: x shifted left by n bits. -/
def Lsh (x : Int) (n : Nat) : Int := x * 2 ^ n

/-- Go conversion uint(i) of an int on a 64-bit platform. -/
def uint (i : Int) : Nat := (i % 18446744073709551616).toNat

/-! ## main.go -/

/-- Block of main.go. -/
structure Block where
  Timestamp : Int
  Data : Bytes
  Hash : Bytes
  PreviousHash : Bytes
  nonce : Int
deriving DecidableEq

/-- BlockChain of main.go. -/
structure BlockChain where
  blocks : List Block
deriving DecidableEq

/-- ProofOfWork of main.go. -/
structure ProofOfWork where
  block : Block
  target : Int
deriving DecidableEq

/-- Constant maxNonce = math.MaxInt64. -/
def maxNonce : Int := 9223372036854775807

/-- NewProofOfWork of main.go, reading the variable difficulty: the object the
call returns when it returns. Whether it returns is given by
Exec.NewProofOfWork below. -/
def NewProofOfWork (difficulty : Int) (b : Block) : ProofOfWork :=
  let target := Lsh 1 (uint (256 - difficulty))
  { block := b, target := target }

/-- Method prepareHash of main.go, reading the variable difficulty. -/
def prepareHash (difficulty : Int) (pow : ProofOfWork) (nonce : Int) : Bytes :=
  bytesJoin
    [pow.block.PreviousHash,
     pow.block.Data,
     strconv.FormatInt pow.block.Timestamp 16,
     strconv.FormatInt difficulty 16,
     strconv.FormatInt nonce 16]
    []

/-- Loop of Run from the given values of the result variables nonce and hash. -/
def runLoop (difficulty : Int) (pow : ProofOfWork) (nonce : Int) (hash : Bytes) : Int × Bytes :=
  if nonce < maxNonce then
    let mergedData := prepareHash difficulty pow nonce
    let hash := sha256.Sum256 mergedData
    let hashInt := SetBytes hash
    if Cmp hashInt pow.target = -1 then (nonce, hash)
    else runLoop difficulty pow (nonce + 1) hash
  else (nonce, hash)
termination_by (maxNonce - nonce).toNat
decreasing_by omega

/-- Method Run of main.go: the loop entered with nonce = 0 and hash = nil, as
the pair of results. Exec.Run below is the same loop on the memory that holds
the block. -/
def Run (difficulty : Int) (pow : ProofOfWork) : Int × Bytes :=
  runLoop difficulty pow 0 []

/-- Method Validate of main.go. -/
def Validate (difficulty : Int) (pow : ProofOfWork) : Bool :=
  let mergedData := prepareHash difficulty pow pow.block.nonce
  let hash32 := sha256.Sum256 mergedData
  let hashInt := SetBytes hash32
  Cmp hashInt pow.target == -1

/-- NewBlock of main.go; now is the value of time.Now().Unix(). This is the
block the call returns when it returns; Exec.NewBlock below is the call. -/
def NewBlock (difficulty now : Int) (data previousHash : Bytes) : Block :=
  let block : Block :=
    { Timestamp := now, Data := data, Hash := [], PreviousHash := previousHash, nonce := 0 }
  let pow := NewProofOfWork difficulty block
  let r := Run difficulty pow
  { block with nonce := r.1, Hash := r.2 }

/-- Bytes of the string literal First block. -/
def firstBlockData : Bytes := [70, 105, 114, 115, 116, 32, 98, 108, 111, 99, 107]

/-- NewFirstBlock of main.go: the block returned, when the call returns. -/
def NewFirstBlock (difficulty now : Int) : Block :=
  NewBlock difficulty now firstBlockData []

/-- NewBlockChain of main.go: the chain returned, when the call returns. -/
def NewBlockChain (difficulty now : Int) : BlockChain :=
  { blocks := [NewFirstBlock difficulty now] }

/-! ### The calls as executed: run-time errors and the memory of Run

The definitions above give what a call returns when it returns. The
definitions of Exec give the calls themselves: big.Int.Lsh can panic, which
ends NewProofOfWork and every caller of it without a result (none), and Run
works on the memory that holds the block pow.block points to. -/

/-- Memory on which Run works: the Block that pow.block points to, and the
result variables nonce and hash of Run. -/
structure RunState where
  block : Block
  nonce : Int
  hash : Bytes
deriving DecidableEq

namespace Exec

/-- Go big.Int.Lsh as a call. For x = 0 nothing is allocated. For another x the
result takes more than n / 64 words, and once n >= 2^63 that is above what make
can allocate on any platform, so the call panics (makeslice: len out of range):
none. Smaller shift amounts are taken to succeed: the size of the memory is not
modelled. -/
def Lsh (x : Int) (n : Nat) : Option Int :=
  if x = 0 ∨ n < 9223372036854775808 then some (Blockchain.Lsh x n) else none

/-- NewProofOfWork of main.go as a call: a panic of Lsh ends it without a
result. -/
def NewProofOfWork (difficulty : Int) (b : Block) : Option ProofOfWork :=
  match Exec.Lsh 1 (uint (256 - difficulty)) with
  | none => none
  | some target => some { block := b, target := target }

/-- Loop of Run on its memory: a pass reads the block through prepareHash and
assigns the variables hash and nonce, nothing else. -/
def runLoop (difficulty : Int) (target : Int) (s : RunState) : RunState :=
  if s.nonce < maxNonce then
    let mergedData := prepareHash difficulty { block := s.block, target := target } s.nonce
    let hash := sha256.Sum256 mergedData
    let hashInt := SetBytes hash
    if Cmp hashInt target = -1 then { s with hash := hash }
    else runLoop difficulty target { s with hash := hash, nonce := s.nonce + 1 }
  else s
termination_by (maxNonce - s.nonce).toNat
decreasing_by omega

/-- Method Run of main.go on its memory: the loop entered with nonce = 0 and
hash = nil, the block being the one pow.block points to. -/
def Run (difficulty : Int) (pow : ProofOfWork) : RunState :=
  Exec.runLoop difficulty pow.target { block := pow.block, nonce := 0, hash := [] }

/-- NewBlock of main.go as a call: the block is built, NewProofOfWork is called
on it, Run runs on the memory holding it, and then its fields nonce and Hash
are assigned from the results of Run. -/
def NewBlock (difficulty now : Int) (data previousHash : Bytes) : Option Block :=
  let block : Block :=
    { Timestamp := now, Data := data, Hash := [], PreviousHash := previousHash, nonce := 0 }
  match Exec.NewProofOfWork difficulty block with
  | none => none
  | some pow =>
    let s := Exec.Run difficulty pow
    some { s.block with nonce := s.nonce, Hash := s.hash }

/-- NewFirstBlock of main.go as a call. -/
def NewFirstBlock (difficulty now : Int) : Option Block :=
  Exec.NewBlock difficulty now firstBlockData []

/-- NewBlockChain of main.go as a call. -/
def NewBlockChain (difficulty now : Int) : Option BlockChain :=
  match Exec.NewFirstBlock difficulty now with
  | none => none
  | some b => some { blocks := [b] }

end Exec

/-- Method addBlock of main.go; data is the byte content of the Go string.
Indexing an empty slice is a run-time error and so is a panic inside NewBlock;
both are rendered as none. -/
def addBlock (difficulty now : Int) (bc : BlockChain) (data : Bytes) : Option BlockChain :=
  match bc.blocks.getLast? with
  | none => none
  | some last =>
    let prevHash := last.Hash
    match Exec.NewBlock difficulty now data prevHash with
    | none => none
    | some b => some { blocks := bc.blocks ++ [b] }

/-- Chains obtained from a call of NewBlockChain that returns, by finitely many
addBlock calls that return, each call at its own clock value and value of the
variable difficulty. -/
inductive Reachable : BlockChain → Prop
  | init (difficulty now : Int) (bc : BlockChain) :
      Exec.NewBlockChain difficulty now = some bc → Reachable bc
  | add (difficulty now : Int) (data : Bytes) (bc bc1 : BlockChain) :
      Reachable bc → addBlock difficulty now bc data = some bc1 → Reachable bc1

/-! ## Reference renderings used by the statements -/

/-- ASCII code of the lowercase hexadecimal digit of value k < 16. -/
def hexDigit (k : Nat) : UInt8 :=
  if k < 10 then UInt8.ofNat (48 + k) else UInt8.ofNat (87 + k)

/-- Base-16 digits of n, most significant first, no leading zero; 0 is one digit. -/
def hexNat (n : Nat) : Bytes :=
  if n = 0 then [48] else ((Nat.digits 16 n).reverse).map hexDigit

/-- Lowercase base-16 ASCII rendering of a signed integer: a minus sign for a
negative value, then the digits of the absolute value. -/
def hex (n : Int) : Bytes :=
  if n < 0 then 45 :: hexNat n.natAbs else hexNat n.natAbs

/-- Range of a Go int64 value, and of a Go int on a 64-bit platform. -/
def isInt64 (i : Int) : Prop :=
  -9223372036854775808 ≤ i ∧ i ≤ 9223372036854775807

/-- Value of an ASCII lowercase hexadecimal digit: the inverse of hexDigit. -/
def unhexDigit (c : UInt8) : Nat :=
  if c.toNat < 58 then c.toNat - 48 else c.toNat - 87

/-- Integer that Run and Validate compare with the target at a nonce: the
SHA-256 digest of prepareHash(nonce), read by SetBytes. -/
def digestInt (difficulty : Int) (pow : ProofOfWork) (nonce : Int) : Int :=
  SetBytes (sha256.Sum256 (prepareHash difficulty pow nonce))

/-! ## Helper lemmas -/

theorem Cmp_eq_neg_one_iff (x y : Int) : Cmp x y = -1 ↔ x < y := by
  unfold Cmp
  split_ifs with h1 h2
  · simp [h1]
  · simp [h1]
  · simp [h1]

theorem uint_of_range (i : Int) (h0 : 0 ≤ i) (h1 : i < 18446744073709551616) :
    uint i = i.toNat := by
  unfold uint
  rw [Int.emod_eq_of_lt h0 h1]

theorem target_eq (d : Int) (b : Block) (h0 : 0 ≤ d) (h1 : d ≤ 256) :
    (NewProofOfWork d b).target = 2 ^ (256 - d).toNat := by
  simp only [NewProofOfWork, Lsh]
  rw [uint_of_range (256 - d) (by omega) (by omega)]
  simp

theorem foldl_bytes_bound (l : Bytes) (acc : Nat) :
    l.foldl (fun acc x => acc * 256 + x.toNat) acc + 1 ≤ (acc + 1) * 256 ^ l.length := by
  induction l generalizing acc with
  | nil => simp
  | cons x l ih =>
    simp only [List.foldl_cons, List.length_cons]
    have hx : x.toNat < 256 := x.val.isLt
    calc l.foldl (fun acc x => acc * 256 + x.toNat) (acc * 256 + x.toNat) + 1
        ≤ (acc * 256 + x.toNat + 1) * 256 ^ l.length := ih _
      _ ≤ ((acc + 1) * 256) * 256 ^ l.length := by
          apply Nat.mul_le_mul_right
          omega
      _ = (acc + 1) * 256 ^ (l.length + 1) := by ring

theorem SetBytes_nonneg (l : Bytes) : 0 ≤ SetBytes l := by
  unfold SetBytes
  exact Int.ofNat_nonneg _

theorem SetBytes_lt (l : Bytes) : SetBytes l < (256 : Int) ^ l.length := by
  unfold SetBytes
  have h := foldl_bytes_bound l 0
  simp only [zero_add, one_mul] at h
  have h2 : l.foldl (fun acc x => acc * 256 + x.toNat) 0 < 256 ^ l.length := by omega
  rw [Int.ofNat_eq_coe]
  exact_mod_cast h2

theorem Sum256_length (data : Bytes) : (sha256.Sum256 data).length = 32 := by
  simp [sha256.Sum256, sha256.be32]

theorem SetBytes_Sum256_lt (data : Bytes) : SetBytes (sha256.Sum256 data) < 2 ^ 256 := by
  have h := SetBytes_lt (sha256.Sum256 data)
  rw [Sum256_length] at h
  have e : (256 : Int) ^ 32 = 2 ^ 256 := by norm_num
  rw [e] at h
  exact h

theorem digits_getD_eq_hexDigit (k : Nat) (h : k < 16) :
    strconv.digits.getD k 0 = hexDigit k := by
  interval_cases k <;> rfl

theorem hexNat_of_lt (u : Nat) (h : u < 16) : hexNat u = [hexDigit u] := by
  unfold hexNat
  split_ifs with h0
  · subst h0; rfl
  · rw [Nat.digits_of_lt 16 u h0 h]; rfl

theorem hexNat_step (u : Nat) (h : 16 ≤ u) :
    hexNat u = hexNat (u / 16) ++ [hexDigit (u % 16)] := by
  have hu : u ≠ 0 := by omega
  have hq : u / 16 ≠ 0 := by omega
  unfold hexNat
  rw [if_neg hu, if_neg hq, Nat.digits_def' (by norm_num) (by omega)]
  simp

theorem formatBitsShift_eq_hexNat (n : Nat) :
    ∀ (u : Nat) (a : Bytes), u < 16 ^ (n + 1) →
      strconv.formatBitsShift 4 16 15 n u a = hexNat u ++ a := by
  induction n with
  | zero =>
    intro u a hu
    have hu16 : u < 16 := by simpa using hu
    unfold strconv.formatBitsShift
    rw [hexNat_of_lt u hu16, digits_getD_eq_hexDigit u hu16]
    rfl
  | succ n ih =>
    intro u a hu
    unfold strconv.formatBitsShift
    split_ifs with hb
    · have hq : u / 16 < 16 ^ (n + 1) := by
        rw [Nat.div_lt_iff_lt_mul (by norm_num)]
        calc u < 16 ^ (n + 1 + 1) := hu
          _ = 16 ^ (n + 1) * 16 := by ring
      have hs : u >>> 4 = u / 16 := by
        rw [Nat.shiftRight_eq_div_pow]
      have hm : u &&& 15 = u % 16 := Nat.and_pow_two_sub_one_eq_mod u 4
      rw [hs, hm, ih (u / 16) _ hq, hexNat_step u hb,
        digits_getD_eq_hexDigit (u % 16) (Nat.mod_lt _ (by norm_num))]
      simp
    · have hu16 : u < 16 := by omega
      rw [hexNat_of_lt u hu16, digits_getD_eq_hexDigit u hu16]
      rfl

/-- On the int64 range, FormatInt at base 16 is the reference rendering. -/
theorem FormatInt_eq_hex (i : Int) (h0 : -9223372036854775808 ≤ i)
    (h1 : i ≤ 9223372036854775807) : strconv.FormatInt i 16 = hex i := by
  have hp : strconv.isPowerOfTwo 16 = true := by decide
  have ht : strconv.trailingZeros 64 16 &&& 7 = 4 := by decide
  have hbig : (2 : Nat) ^ 64 ≤ 16 ^ (64 + 1) := by norm_num
  unfold strconv.FormatInt strconv.formatBits hex
  simp only [hp, ht, if_true]
  by_cases hneg : i < 0
  · have hu : strconv.uint64 i = (i + 18446744073709551616).toNat := by
      unfold strconv.uint64
      rw [Int.emod_eq_add_self_emod, Int.emod_eq_of_lt (by omega) (by omega)]
    have hv : (18446744073709551616 - strconv.uint64 i) % 18446744073709551616 = i.natAbs := by
      rw [hu]; omega
    simp only [hneg, decide_True, if_true, hv]
    show 45 :: strconv.formatBitsShift 4 16 15 64 i.natAbs [] = _
    rw [formatBitsShift_eq_hexNat 64 i.natAbs [] (by omega)]
    simp
  · have hu : strconv.uint64 i = i.natAbs := by
      unfold strconv.uint64
      rw [Int.emod_eq_of_lt (by omega) (by omega)]
      omega
    simp only [hneg, decide_False, hu, Bool.false_eq_true, if_false]
    show strconv.formatBitsShift 4 16 15 64 i.natAbs [] = _
    rw [formatBitsShift_eq_hexNat 64 i.natAbs [] (by omega)]
    simp

theorem prepareHash_eq (d : Int) (pow : ProofOfWork) (nonce : Int) :
    prepareHash d pow nonce = pow.block.PreviousHash ++ pow.block.Data
      ++ strconv.FormatInt pow.block.Timestamp 16 ++ strconv.FormatInt d 16
      ++ strconv.FormatInt nonce 16 := by
  simp [prepareHash, bytesJoin]

theorem runLoop_done (d : Int) (pow : ProofOfWork) (n : Int) (hash : Bytes)
    (h : ¬ n < maxNonce) : runLoop d pow n hash = (n, hash) := by
  rw [runLoop, if_neg h]

theorem runLoop_hit (d : Int) (pow : ProofOfWork) (n : Int) (hash : Bytes)
    (h : n < maxNonce) (hit : digestInt d pow n < pow.target) :
    runLoop d pow n hash = (n, sha256.Sum256 (prepareHash d pow n)) := by
  rw [runLoop, if_pos h]
  have hc : Cmp (SetBytes (sha256.Sum256 (prepareHash d pow n))) pow.target = -1 :=
    (Cmp_eq_neg_one_iff _ _).mpr hit
  simp only [hc, if_true]

theorem runLoop_miss (d : Int) (pow : ProofOfWork) (n : Int) (hash : Bytes)
    (h : n < maxNonce) (miss : pow.target ≤ digestInt d pow n) :
    runLoop d pow n hash
      = runLoop d pow (n + 1) (sha256.Sum256 (prepareHash d pow n)) := by
  rw [runLoop, if_pos h]
  have hc : ¬ Cmp (SetBytes (sha256.Sum256 (prepareHash d pow n))) pow.target = -1 := by
    rw [Cmp_eq_neg_one_iff]
    exact not_lt.mpr miss
  simp only [hc, if_false]

/-- Result of the loop of Run entered at nonce n: the result nonce r lies in
[n, maxNonce], no nonce in [n, r) meets the target, a result below maxNonce
meets the target and comes with its own digest, and a result equal to maxNonce
comes with the digest of maxNonce - 1 (or the entry hash when n = maxNonce). -/
theorem runLoop_spec (d : Int) (pow : ProofOfWork) :
    ∀ (k : Nat) (n : Int) (hash : Bytes), n ≤ maxNonce → (maxNonce - n).toNat = k →
      n ≤ (runLoop d pow n hash).1 ∧ (runLoop d pow n hash).1 ≤ maxNonce ∧
      (∀ m, n ≤ m → m < (runLoop d pow n hash).1 → pow.target ≤ digestInt d pow m) ∧
      ((runLoop d pow n hash).1 < maxNonce →
        digestInt d pow (runLoop d pow n hash).1 < pow.target ∧
        (runLoop d pow n hash).2
          = sha256.Sum256 (prepareHash d pow (runLoop d pow n hash).1)) ∧
      ((runLoop d pow n hash).1 = maxNonce →
        (n < maxNonce → (runLoop d pow n hash).2
          = sha256.Sum256 (prepareHash d pow (maxNonce - 1))) ∧
        (n = maxNonce → (runLoop d pow n hash).2 = hash)) := by
  intro k
  induction k with
  | zero =>
    intro n hash hle hk
    have hn : n = maxNonce := by omega
    rw [runLoop_done d pow n hash (by omega)]
    refine ⟨le_refl _, hle, ?_, ?_, ?_⟩
    · intro m h1 h2; simp only at h2; omega
    · intro h; simp only at h; omega
    · intro _; exact ⟨fun h => by omega, fun _ => rfl⟩
  | succ k ih =>
    intro n hash hle hk
    have hn : n < maxNonce := by omega
    by_cases hit : digestInt d pow n < pow.target
    · rw [runLoop_hit d pow n hash hn hit]
      refine ⟨le_refl _, hle, ?_, ?_, ?_⟩
      · intro m h1 h2; simp only at h2; omega
      · intro _; exact ⟨hit, rfl⟩
      · intro h; simp only at h; omega
    · have miss : pow.target ≤ digestInt d pow n := not_lt.mp hit
      rw [runLoop_miss d pow n hash hn miss]
      obtain ⟨h1, h2, h3, h4, h5⟩ :=
        ih (n + 1) (sha256.Sum256 (prepareHash d pow n)) (by omega) (by omega)
      refine ⟨by omega, h2, ?_, h4, ?_⟩
      · intro m hm1 hm2
        by_cases hmn : m = n
        · subst hmn; exact miss
        · exact h3 m (by omega) hm2
      · intro hr
        refine ⟨fun _ => ?_, fun h => by omega⟩
        by_cases hlast : n + 1 < maxNonce
        · exact (h5 hr).1 hlast
        · have e : n + 1 = maxNonce := by omega
          have e2 : n = maxNonce - 1 := by omega
          rw [(h5 hr).2 e, e2]

theorem Validate_iff_lt (d : Int) (pow : ProofOfWork) :
    Validate d pow = true ↔ digestInt d pow pow.block.nonce < pow.target := by
  unfold Validate digestInt
  simp only [beq_iff_eq]
  exact Cmp_eq_neg_one_iff _ _

theorem prepareHash_header (d : Int) (p q : ProofOfWork) (n : Int)
    (h1 : p.block.PreviousHash = q.block.PreviousHash) (h2 : p.block.Data = q.block.Data)
    (h3 : p.block.Timestamp = q.block.Timestamp) :
    prepareHash d p n = prepareHash d q n := by
  rw [prepareHash_eq, prepareHash_eq, h1, h2, h3]

theorem NewBlock_fields (d now : Int) (data prev : Bytes) :
    (NewBlock d now data prev).Timestamp = now ∧ (NewBlock d now data prev).Data = data ∧
    (NewBlock d now data prev).PreviousHash = prev ∧
    (NewBlock d now data prev).nonce
      = (Run d (NewProofOfWork d ⟨now, data, [], prev, 0⟩)).1 ∧
    (NewBlock d now data prev).Hash
      = (Run d (NewProofOfWork d ⟨now, data, [], prev, 0⟩)).2 :=
  ⟨rfl, rfl, rfl, rfl, rfl⟩

theorem digestInt_header (d : Int) (p q : ProofOfWork) (n : Int)
    (h1 : p.block.PreviousHash = q.block.PreviousHash) (h2 : p.block.Data = q.block.Data)
    (h3 : p.block.Timestamp = q.block.Timestamp) :
    digestInt d p n = digestInt d q n := by
  unfold digestInt
  rw [prepareHash_header d p q n h1 h2 h3]

theorem prepareHash_NewBlock (d now : Int) (data prev : Bytes) (n : Int) :
    prepareHash d (NewProofOfWork d (NewBlock d now data prev)) n
      = prepareHash d (NewProofOfWork d ⟨now, data, [], prev, 0⟩) n := by
  have e1 : (NewProofOfWork d (NewBlock d now data prev)).block.PreviousHash = prev := rfl
  have e2 : (NewProofOfWork d (NewBlock d now data prev)).block.Data = data := rfl
  have e3 : (NewProofOfWork d (NewBlock d now data prev)).block.Timestamp = now := rfl
  have f1 : (NewProofOfWork d ⟨now, data, [], prev, 0⟩).block.PreviousHash = prev := rfl
  have f2 : (NewProofOfWork d ⟨now, data, [], prev, 0⟩).block.Data = data := rfl
  have f3 : (NewProofOfWork d ⟨now, data, [], prev, 0⟩).block.Timestamp = now := rfl
  rw [prepareHash_eq, prepareHash_eq, e1, e2, e3, f1, f2, f3]

theorem digestInt_NewBlock (d now : Int) (data prev : Bytes) (n : Int) :
    digestInt d (NewProofOfWork d (NewBlock d now data prev)) n
      = digestInt d (NewProofOfWork d ⟨now, data, [], prev, 0⟩) n := by
  unfold digestInt
  rw [prepareHash_NewBlock]

theorem NewBlock_nonce (d now : Int) (data prev : Bytes) :
    (NewBlock d now data prev).nonce
      = (Run d (NewProofOfWork d ⟨now, data, [], prev, 0⟩)).1 := rfl

theorem NewBlock_Hash (d now : Int) (data prev : Bytes) :
    (NewBlock d now data prev).Hash
      = (Run d (NewProofOfWork d ⟨now, data, [], prev, 0⟩)).2 := rfl

theorem target_lt_of_lt (d1 d2 : Int) (b1 b2 : Block) (h0 : 0 ≤ d1) (h : d1 < d2)
    (h2 : d2 ≤ 256) :
    (NewProofOfWork d2 b2).target < (NewProofOfWork d1 b1).target := by
  rw [target_eq d1 b1 h0 (by omega), target_eq d2 b2 (by omega) h2]
  have hlt : (256 - d2).toNat < (256 - d1).toNat := by omega
  exact pow_lt_pow_right₀ (by norm_num) hlt

theorem Validate_at_zero (b : Block) : Validate 0 (NewProofOfWork 0 b) = true := by
  rw [Validate_iff_lt]
  have e : (256 - (0 : Int)).toNat = 256 := by decide
  rw [target_eq 0 b (by decide) (by decide), e]
  exact SetBytes_Sum256_lt _

/-- SHA-256 test vectors of FIPS 180-4: the empty message, the message abc and
the 56-byte message abcdbcdecdefdefgefghfghighijhijkijkljklmklmnlmnomnopnopq,
which is padded to two blocks. -/
theorem Sum256_vectors :
    SetBytes (sha256.Sum256 [])
      = 0xe3b0c44298fc1c149afbf4c8996fb92427ae41e4649b934ca495991b7852b855 ∧
    SetBytes (sha256.Sum256 [97, 98, 99])
      = 0xba7816bf8f01cfea414140de5dae2223b00361a396177a9cb410ff61f20015ad ∧
    SetBytes (sha256.Sum256
        [97, 98, 99, 100, 98, 99, 100, 101, 99, 100, 101, 102, 100, 101, 102, 103,
         101, 102, 103, 104, 102, 103, 104, 105, 103, 104, 105, 106, 104, 105, 106, 107,
         105, 106, 107, 108, 106, 107, 108, 109, 107, 108, 109, 110, 108, 109, 110, 111,
         109, 110, 111, 112, 110, 111, 112, 113])
      = 0x248d6a61d20638b8e5c026930c3e6039a33ce45964ff2167f6ecedd419db06c1 := by
  decide!

theorem maxNonce_pos : (0 : Int) < maxNonce := by decide

/-! ## Claims -/

/-- The search of Run on the header (now, data, prev) at difficulty d stops
below maxNonce, at a nonce that meets the target, as soon as some nonce in
[0, maxNonce) meets the target. -/
theorem Run_hit_of_exists (d : Int) (pow : ProofOfWork)
    (h : ∃ n, 0 ≤ n ∧ n < maxNonce ∧ digestInt d pow n < pow.target) :
    (Run d pow).1 < maxNonce ∧ digestInt d pow (Run d pow).1 < pow.target := by
  obtain ⟨n, hn0, hn1, hn⟩ := h
  obtain ⟨_, hle, hmiss, hhit, _⟩ :=
    runLoop_spec d pow (maxNonce - 0).toNat 0 [] (le_of_lt maxNonce_pos) rfl
  have hr : (runLoop d pow 0 []).1 < maxNonce := by
    by_contra hcon
    have hm := hmiss n hn0 (by omega)
    omega
  exact ⟨hr, (hhit hr).1⟩

/-- C1. Mining success implies validation success: for every payload, previous
hash, timestamp and difficulty d, when the search of Run succeeds (some nonce
in [0, maxNonce) has its digest, for the header built by NewBlock, below the
target of d), the block returned by NewBlock at difficulty d passes Validate at
the same difficulty d. -/
theorem mining_success_implies_validation (d now : Int) (data prev : Bytes)
    (h : ∃ n, 0 ≤ n ∧ n < maxNonce ∧
      SetBytes (sha256.Sum256 (prepareHash d (NewProofOfWork d ⟨now, data, [], prev, 0⟩) n))
        < (NewProofOfWork d ⟨now, data, [], prev, 0⟩).target) :
    Validate d (NewProofOfWork d (NewBlock d now data prev)) = true := by
  rw [Validate_iff_lt, digestInt_NewBlock]
  exact (Run_hit_of_exists d (NewProofOfWork d ⟨now, data, [], prev, 0⟩) h).2

/-- Witness of C1: the genesis payload at clock value 0 and difficulty 2, where
nonce 0 already meets the target. -/
theorem mining_success_implies_validation_witness :
    Validate 2 (NewProofOfWork 2 (NewBlock 2 0 firstBlockData [])) = true :=
  mining_success_implies_validation 2 0 firstBlockData []
    ⟨0, by decide, by decide, by decide!⟩

/-- C2. For every block and every current difficulty d with 0 <= d <= 256,
Validate returns true if and only if the SHA-256 digest of
prepareHash(block.nonce) computed with the current difficulty d, read as a
big-endian unsigned integer, is strictly below 2^(256-d). The block is
arbitrary, so the criterion is the same for a block mined at another
difficulty: only the current difficulty d enters. -/
theorem Validate_iff_digest_lt_target (b : Block) (d : Int) (h0 : 0 ≤ d) (h1 : d ≤ 256) :
    Validate d (NewProofOfWork d b) = true ↔
      SetBytes (sha256.Sum256 (prepareHash d (NewProofOfWork d b) b.nonce))
        < 2 ^ (256 - d).toNat := by
  rw [Validate_iff_lt, target_eq d b h0 h1]
  rfl

/-- Witness of C2: the block mined by NewBlock at difficulty 0, validated at
current difficulty 1. -/
theorem Validate_iff_digest_lt_target_witness :
    Validate 1 (NewProofOfWork 1 (NewBlock 0 0 firstBlockData [])) = true ↔
      SetBytes (sha256.Sum256 (prepareHash 1 (NewProofOfWork 1 (NewBlock 0 0 firstBlockData []))
        (NewBlock 0 0 firstBlockData []).nonce)) < 2 ^ (256 - (1 : Int)).toNat :=
  Validate_iff_digest_lt_target (NewBlock 0 0 firstBlockData []) 1 (by decide) (by decide)

/-- C3. For every block header, difficulty and nonce (int64 values), prepareHash
returns exactly PreviousHash ++ Data ++ hex(Timestamp) ++ hex(difficulty) ++
hex(nonce), in that order and with no delimiter bytes, where hex is the
lowercase base-16 ASCII rendering without leading zeros or prefix, with a
leading minus sign for negative values. -/
theorem prepareHash_layout (d nonce : Int) (pow : ProofOfWork)
    (ht : -9223372036854775808 ≤ pow.block.Timestamp ∧ pow.block.Timestamp ≤ 9223372036854775807)
    (hd : -9223372036854775808 ≤ d ∧ d ≤ 9223372036854775807)
    (hn : -9223372036854775808 ≤ nonce ∧ nonce ≤ 9223372036854775807) :
    prepareHash d pow nonce
      = pow.block.PreviousHash ++ pow.block.Data ++ hex pow.block.Timestamp ++ hex d
        ++ hex nonce := by
  rw [prepareHash_eq, FormatInt_eq_hex _ ht.1 ht.2, FormatInt_eq_hex _ hd.1 hd.2,
    FormatInt_eq_hex _ hn.1 hn.2]

/-- Witness of C3: a header with a negative timestamp, difficulty 1 and nonce 255. -/
theorem prepareHash_layout_witness :
    prepareHash 1 (NewProofOfWork 1 ⟨-26, [97], [], [98], 0⟩) 255
      = [98] ++ [97] ++ hex (-26) ++ hex 1 ++ hex 255 :=
  prepareHash_layout 1 255 (NewProofOfWork 1 ⟨-26, [97], [], [98], 0⟩)
    ⟨by decide, by decide⟩ ⟨by decide, by decide⟩ ⟨by decide, by decide⟩

/-- The reference rendering on sample values: 0, ff, -1a, 7fffffffffffffff. -/
theorem hex_samples :
    hex 0 = [48] ∧ hex 255 = [102, 102] ∧ hex (-26) = [45, 49, 97] ∧
    hex 9223372036854775807
      = [55, 102, 102, 102, 102, 102, 102, 102, 102, 102, 102, 102, 102, 102, 102, 102] := by
  refine ⟨?_, ?_, ?_, ?_⟩
  · rfl
  · rw [← FormatInt_eq_hex 255 (by decide) (by decide)]; decide
  · rw [← FormatInt_eq_hex (-26) (by decide) (by decide)]; decide
  · rw [← FormatInt_eq_hex 9223372036854775807 (by decide) (by decide)]; decide

/-- C4. For every difficulty d with 0 <= d <= 256 the target computed by
NewProofOfWork equals 2^(256 - d), whatever block is passed in. -/
theorem target_eq_two_pow (d : Int) (h0 : 0 ≤ d) (h1 : d ≤ 256) (b : Block) :
    (NewProofOfWork d b).target = 2 ^ (256 - d).toNat ∧
    ∀ b2 : Block, (NewProofOfWork d b2).target = (NewProofOfWork d b).target := by
  refine ⟨target_eq d b h0 h1, fun b2 => rfl⟩

/-- Witness of C4: difficulty 256 gives the target 1 and difficulty 0 the
target 2^256. -/
theorem target_eq_two_pow_witness :
    ((NewProofOfWork 256 ⟨0, [], [], [], 0⟩).target = 2 ^ (256 - (256 : Int)).toNat ∧
      ∀ b2 : Block, (NewProofOfWork 256 b2).target
        = (NewProofOfWork 256 ⟨0, [], [], [], 0⟩).target) ∧
    ((NewProofOfWork 0 ⟨0, [], [], [], 0⟩).target = 2 ^ (256 - (0 : Int)).toNat ∧
      ∀ b2 : Block, (NewProofOfWork 0 b2).target
        = (NewProofOfWork 0 ⟨0, [], [], [], 0⟩).target) :=
  ⟨target_eq_two_pow 256 (by decide) (by decide) ⟨0, [], [], [], 0⟩,
   target_eq_two_pow 0 (by decide) (by decide) ⟨0, [], [], [], 0⟩⟩

/-- C5. Target monotonicity: for all difficulties d1 < d2, both in 0..256, the
target computed by NewProofOfWork at d1 is strictly greater than the target
computed at d2. -/
theorem target_strict_anti (d1 d2 : Int) (b1 b2 : Block) (h0 : 0 ≤ d1) (h : d1 < d2)
    (h2 : d2 ≤ 256) :
    (NewProofOfWork d2 b2).target < (NewProofOfWork d1 b1).target :=
  target_lt_of_lt d1 d2 b1 b2 h0 h h2

/-- Witness of C5: difficulties 0 and 1, and difficulties 255 and 256. -/
theorem target_strict_anti_witness :
    (NewProofOfWork 1 ⟨0, [], [], [], 0⟩).target < (NewProofOfWork 0 ⟨0, [], [], [], 0⟩).target ∧
    (NewProofOfWork 256 ⟨0, [], [], [], 0⟩).target
      < (NewProofOfWork 255 ⟨0, [], [], [], 0⟩).target :=
  ⟨target_strict_anti 0 1 _ _ (by decide) (by decide) (by decide),
   target_strict_anti 255 256 _ _ (by decide) (by decide) (by decide)⟩

/-- C6, counterexample. The header (PreviousHash empty, Data = First block,
Timestamp 0) with nonce 0 is accepted by Validate at difficulty 2 and rejected
by Validate at difficulty 1: the difficulty is part of the hashed bytes, so the
two calls compare different digests. -/
theorem Validate_not_monotone :
    Validate 2 (NewProofOfWork 2 ⟨0, firstBlockData, [], [], 0⟩) = true ∧
    Validate 1 (NewProofOfWork 1 ⟨0, firstBlockData, [], [], 0⟩) = false := by
  decide!

/-- C6, amended. For every block header, every nonce and all difficulties
d1 < d2 in 0..256: if Validate accepts the block with that nonce when the
difficulty is d2, then the digest it compared, that of the header encoded with
difficulty d2, is also below the target of d1. -/
theorem digest_accepted_at_lower_difficulty (b : Block) (d1 d2 : Int)
    (h0 : 0 ≤ d1) (h : d1 < d2) (h2 : d2 ≤ 256)
    (hacc : Validate d2 (NewProofOfWork d2 b) = true) :
    SetBytes (sha256.Sum256 (prepareHash d2 (NewProofOfWork d2 b) b.nonce))
      < (NewProofOfWork d1 b).target := by
  have hlt := target_lt_of_lt d1 d2 b b h0 h h2
  rw [Validate_iff_lt] at hacc
  exact lt_trans hacc hlt

/-- Witness of C6 amended: the header of the counterexample at d1 = 1, d2 = 2. -/
theorem digest_accepted_at_lower_difficulty_witness :
    SetBytes (sha256.Sum256 (prepareHash 2 (NewProofOfWork 2 ⟨0, firstBlockData, [], [], 0⟩) 0))
      < (NewProofOfWork 1 ⟨0, firstBlockData, [], [], 0⟩).target :=
  digest_accepted_at_lower_difficulty ⟨0, firstBlockData, [], [], 0⟩ 1 2
    (by decide) (by decide) (by decide) (by decide!)

/-! ### The calls as executed -/

theorem shift_of_range (d : Int) (h0 : 0 ≤ d) (h1 : d ≤ 256) :
    uint (256 - d) < 9223372036854775808 := by
  rw [uint_of_range (256 - d) (by omega) (by omega)]
  omega

theorem shift_above_256 (d : Int) (h : 256 < d) (hi : d ≤ 9223372036854775807) :
    9223372036854775808 ≤ uint (256 - d) := by
  unfold uint
  rw [Int.emod_eq_add_self_emod, Int.emod_eq_of_lt (by omega) (by omega)]
  omega

/-- A call of NewProofOfWork that returns gives the object NewProofOfWork. -/
theorem Exec_NewProofOfWork_some (d : Int) (b : Block) (pow : ProofOfWork)
    (h : Exec.NewProofOfWork d b = some pow) : pow = NewProofOfWork d b := by
  unfold Exec.NewProofOfWork Exec.Lsh at h
  by_cases hc : (1 : Int) = 0 ∨ uint (256 - d) < 9223372036854775808
  · rw [if_pos hc] at h
    simp only [Option.some.injEq] at h
    rw [← h]
    rfl
  · rw [if_neg hc] at h
    simp at h

theorem Exec_NewProofOfWork_of_range (d : Int) (b : Block) (h0 : 0 ≤ d) (h1 : d ≤ 256) :
    Exec.NewProofOfWork d b = some (NewProofOfWork d b) := by
  unfold Exec.NewProofOfWork Exec.Lsh
  rw [if_pos (Or.inr (shift_of_range d h0 h1))]
  rfl

theorem Exec_NewProofOfWork_above_256 (d : Int) (b : Block) (h : 256 < d)
    (hi : d ≤ 9223372036854775807) : Exec.NewProofOfWork d b = none := by
  unfold Exec.NewProofOfWork Exec.Lsh
  have hs := shift_above_256 d h hi
  rw [if_neg (by
    intro hc
    rcases hc with hc | hc
    · exact absurd hc (by decide)
    · omega)]

/-- The loop of Run on its memory leaves the block as it is and computes the
pair of runLoop. -/
theorem Exec_runLoop_eq (d t : Int) :
    ∀ (k : Nat) (s : RunState), (maxNonce - s.nonce).toNat = k →
      Exec.runLoop d t s
        = { block := s.block,
            nonce := (runLoop d { block := s.block, target := t } s.nonce s.hash).1,
            hash := (runLoop d { block := s.block, target := t } s.nonce s.hash).2 } := by
  intro k
  induction k with
  | zero =>
    intro s hk
    have hn : ¬ s.nonce < maxNonce := by omega
    rw [Exec.runLoop, if_neg hn, runLoop_done d _ s.nonce s.hash hn]
  | succ k ih =>
    intro s hk
    have hn : s.nonce < maxNonce := by omega
    by_cases hit : digestInt d { block := s.block, target := t } s.nonce < t
    · rw [runLoop_hit d { block := s.block, target := t } s.nonce s.hash hn hit]
      rw [Exec.runLoop, if_pos hn]
      have hc : Cmp (SetBytes (sha256.Sum256
          (prepareHash d { block := s.block, target := t } s.nonce))) t = -1 :=
        (Cmp_eq_neg_one_iff _ _).mpr hit
      simp only [hc, if_true]
    · have miss : t ≤ digestInt d { block := s.block, target := t } s.nonce := not_lt.mp hit
      rw [runLoop_miss d { block := s.block, target := t } s.nonce s.hash hn miss]
      rw [Exec.runLoop, if_pos hn]
      have hc : ¬ Cmp (SetBytes (sha256.Sum256
          (prepareHash d { block := s.block, target := t } s.nonce))) t = -1 := by
        rw [Cmp_eq_neg_one_iff]
        exact hit
      simp only [hc, if_false]
      rw [ih _ (by simp only; omega)]

theorem Exec_Run_eq (d : Int) (pow : ProofOfWork) :
    Exec.Run d pow
      = { block := pow.block, nonce := (Run d pow).1, hash := (Run d pow).2 } := by
  unfold Exec.Run Run
  rw [Exec_runLoop_eq d pow.target _ _ rfl]

/-- A call of NewBlock returns exactly when the call of NewProofOfWork in it
does, and then it returns the block NewBlock. -/
theorem Exec_NewBlock_eq (d now : Int) (data prev : Bytes) :
    Exec.NewBlock d now data prev
      = (Exec.NewProofOfWork d ⟨now, data, [], prev, 0⟩).map
          (fun _ => NewBlock d now data prev) := by
  unfold Exec.NewBlock
  simp only
  cases hp : Exec.NewProofOfWork d ⟨now, data, [], prev, 0⟩ with
  | none => rfl
  | some pow =>
    have hpow := Exec_NewProofOfWork_some d _ pow hp
    simp only [Option.map_some']
    rw [Exec_Run_eq, hpow]
    rfl

theorem Exec_NewBlock_some (d now : Int) (data prev : Bytes) (b : Block)
    (h : Exec.NewBlock d now data prev = some b) : b = NewBlock d now data prev := by
  rw [Exec_NewBlock_eq] at h
  cases hp : Exec.NewProofOfWork d ⟨now, data, [], prev, 0⟩ with
  | none => rw [hp] at h; simp at h
  | some pow =>
    rw [hp] at h
    simp only [Option.map_some', Option.some.injEq] at h
    exact h.symm

theorem Exec_NewBlock_of_range (d now : Int) (data prev : Bytes) (h0 : 0 ≤ d)
    (h1 : d ≤ 256) : Exec.NewBlock d now data prev = some (NewBlock d now data prev) := by
  rw [Exec_NewBlock_eq, Exec_NewProofOfWork_of_range d _ h0 h1]
  rfl

theorem Exec_NewBlock_above_256 (d now : Int) (data prev : Bytes) (h : 256 < d)
    (hi : d ≤ 9223372036854775807) : Exec.NewBlock d now data prev = none := by
  rw [Exec_NewBlock_eq, Exec_NewProofOfWork_above_256 d _ h hi]
  rfl

theorem Exec_NewBlockChain_some (d now : Int) (bc : BlockChain)
    (h : Exec.NewBlockChain d now = some bc) : bc = NewBlockChain d now := by
  unfold Exec.NewBlockChain Exec.NewFirstBlock at h
  cases hb : Exec.NewBlock d now firstBlockData [] with
  | none => rw [hb] at h; simp at h
  | some b =>
    rw [hb] at h
    simp only [Option.some.injEq] at h
    rw [← h, Exec_NewBlock_some d now firstBlockData [] b hb]
    rfl

theorem Exec_NewBlockChain_of_range (d now : Int) (h0 : 0 ≤ d) (h1 : d ≤ 256) :
    Exec.NewBlockChain d now = some (NewBlockChain d now) := by
  unfold Exec.NewBlockChain Exec.NewFirstBlock
  rw [Exec_NewBlock_of_range d now firstBlockData [] h0 h1]
  rfl

/-! ### Chain invariants -/

theorem addBlock_eq (d now : Int) (bc : BlockChain) (data : Bytes) (last : Block)
    (h : bc.blocks.getLast? = some last) (h0 : 0 ≤ d) (h1 : d ≤ 256) :
    addBlock d now bc data
      = some { blocks := bc.blocks ++ [NewBlock d now data last.Hash] } := by
  unfold addBlock
  rw [h]
  simp only
  rw [Exec_NewBlock_of_range d now data last.Hash h0 h1]

/-- Above 256 the panic in NewProofOfWork ends addBlock without a chain. -/
theorem addBlock_none_above_256 (d now : Int) (bc : BlockChain) (data : Bytes)
    (h : 256 < d) (hi : d ≤ 9223372036854775807) : addBlock d now bc data = none := by
  unfold addBlock
  cases hl : bc.blocks.getLast? with
  | none => rfl
  | some last =>
    simp only
    rw [Exec_NewBlock_above_256 d now data last.Hash h hi]

theorem addBlock_some (d now : Int) (bc bc1 : BlockChain) (data : Bytes)
    (h : addBlock d now bc data = some bc1) :
    ∃ last, bc.blocks.getLast? = some last ∧
      bc1.blocks = bc.blocks ++ [NewBlock d now data last.Hash] := by
  unfold addBlock at h
  cases hl : bc.blocks.getLast? with
  | none => rw [hl] at h; cases h
  | some last =>
    rw [hl] at h
    simp only at h
    cases hb : Exec.NewBlock d now data last.Hash with
    | none => rw [hb] at h; cases h
    | some b =>
      rw [hb] at h
      simp only [Option.some.injEq] at h
      exact ⟨last, rfl, by rw [← h, Exec_NewBlock_some d now data last.Hash b hb]⟩

theorem Reachable_linked (bc : BlockChain) (h : Reachable bc) :
    bc.blocks.Chain' (fun a b => b.PreviousHash = a.Hash) := by
  induction h with
  | init d now bc hbc =>
    rw [Exec_NewBlockChain_some d now bc hbc]
    simp [NewBlockChain]
  | add d now data bc bc1 _ hadd ih =>
    obtain ⟨last, hl, hb⟩ := addBlock_some d now bc bc1 data hadd
    rw [hb, List.chain'_append]
    refine ⟨ih, by simp, ?_⟩
    intro x hx y hy
    rw [hl] at hx
    simp only [Option.mem_def, Option.some.injEq] at hx
    simp only [List.head?_cons, Option.mem_def, Option.some.injEq] at hy
    subst hx
    subst hy
    rfl

theorem Reachable_head (bc : BlockChain) (h : Reachable bc) :
    ∃ g rest, bc.blocks = g :: rest ∧ g.PreviousHash = [] := by
  induction h with
  | init d now bc hbc =>
    rw [Exec_NewBlockChain_some d now bc hbc]
    exact ⟨_, [], rfl, rfl⟩
  | add d now data bc bc1 _ hadd ih =>
    obtain ⟨last, _, hb⟩ := addBlock_some d now bc bc1 data hadd
    obtain ⟨g, rest, hg, hp⟩ := ih
    exact ⟨g, rest ++ [NewBlock d now data last.Hash], by rw [hb, hg]; rfl, hp⟩

/-- On a reachable chain addBlock returns at every difficulty in 0..256. -/
theorem Reachable_addBlock_isSome (bc : BlockChain) (h : Reachable bc) (d now : Int)
    (data : Bytes) (h0 : 0 ≤ d) (h1 : d ≤ 256) :
    ∃ bc1, addBlock d now bc data = some bc1 ∧ Reachable bc1 := by
  obtain ⟨g, rest, hg, _⟩ := Reachable_head bc h
  have hne : bc.blocks ≠ [] := by rw [hg]; simp
  have hl : bc.blocks.getLast? = some (bc.blocks.getLast hne) := List.getLast?_eq_getLast _ hne
  exact ⟨_, addBlock_eq d now bc data _ hl h0 h1,
    Reachable.add d now data bc _ h (addBlock_eq d now bc data _ hl h0 h1)⟩

/-- Chain of two blocks: the genesis block mined at difficulty 0 and clock 0,
then the payload a appended at difficulty 1 and clock 1. -/
theorem twoBlocks_reachable :
    Reachable { blocks := [NewFirstBlock 0 0,
      NewBlock 1 1 [97] (NewFirstBlock 0 0).Hash] } :=
  Reachable.add 1 1 [97] (NewBlockChain 0 0) _
    (Reachable.init 0 0 _ (Exec_NewBlockChain_of_range 0 0 (by decide) (by decide)))
    (addBlock_eq 1 1 (NewBlockChain 0 0) [97] (NewFirstBlock 0 0) rfl (by decide) (by decide))

/-- C7. Chain-link invariant: for every chain obtained from NewBlockChain by any
finite sequence of addBlock calls (any payloads, clock values and values of
difficulty), and for every index i > 0, blocks[i].PreviousHash equals
blocks[i-1].Hash. -/
theorem chain_link_invariant (bc : BlockChain) (h : Reachable bc) (i : Nat) (hi : 0 < i)
    (hlt : i < bc.blocks.length) :
    (bc.blocks.get ⟨i, hlt⟩).PreviousHash
      = (bc.blocks.get ⟨i - 1, by omega⟩).Hash := by
  have hc := Reachable_linked bc h
  rw [List.chain'_iff_get] at hc
  have := hc (i - 1) (by omega)
  have e : i - 1 + 1 = i := by omega
  simp only [e] at this
  exact this

/-- Witness of C7: index 1 of the two-block chain. -/
theorem chain_link_invariant_witness :
    (NewBlock 1 1 [97] (NewFirstBlock 0 0).Hash).PreviousHash = (NewFirstBlock 0 0).Hash :=
  chain_link_invariant _ twoBlocks_reachable 1 (by decide) (by decide)

/-- C8. For every chain obtained from NewBlockChain by any finite sequence of
addBlock calls, the block sequence is non-empty and its first block, the
genesis block, has an empty PreviousHash. -/
theorem genesis_invariant (bc : BlockChain) (h : Reachable bc) :
    bc.blocks ≠ [] ∧ ∃ g rest, bc.blocks = g :: rest ∧ g.PreviousHash = [] := by
  obtain ⟨g, rest, hg, hp⟩ := Reachable_head bc h
  exact ⟨by rw [hg]; simp, g, rest, hg, hp⟩

/-- Witness of C8: the two-block chain. -/
theorem genesis_invariant_witness :
    ({ blocks := [NewFirstBlock 0 0, NewBlock 1 1 [97] (NewFirstBlock 0 0).Hash] }
        : BlockChain).blocks ≠ [] ∧
    ∃ g rest, ({ blocks := [NewFirstBlock 0 0, NewBlock 1 1 [97] (NewFirstBlock 0 0).Hash] }
        : BlockChain).blocks = g :: rest ∧ g.PreviousHash = [] :=
  genesis_invariant _ twoBlocks_reachable

/-! ### Difficulty 0 and tampering -/

/-- C9. With difficulty = 0 the target is 2^256 and, for every payload, previous
hash and timestamp, the digest at nonce 0 is below it, so Run returns nonce 0
together with the SHA-256 digest of prepareHash(0); NewBlock stores exactly
these two values. -/
theorem Run_at_difficulty_zero (now : Int) (data prev hash0 : Bytes) (nonce0 : Int) :
    (NewProofOfWork 0 ⟨now, data, hash0, prev, nonce0⟩).target = 2 ^ 256 ∧
    SetBytes (sha256.Sum256 (prepareHash 0 (NewProofOfWork 0 ⟨now, data, hash0, prev, nonce0⟩) 0))
      < 2 ^ 256 ∧
    Run 0 (NewProofOfWork 0 ⟨now, data, hash0, prev, nonce0⟩)
      = (0, sha256.Sum256 (prepareHash 0 (NewProofOfWork 0 ⟨now, data, hash0, prev, nonce0⟩) 0)) ∧
    (NewBlock 0 now data prev).nonce = 0 ∧
    (NewBlock 0 now data prev).Hash
      = sha256.Sum256 (prepareHash 0 (NewProofOfWork 0 (NewBlock 0 now data prev)) 0) := by
  have ht : ∀ b : Block, (NewProofOfWork 0 b).target = 2 ^ 256 := fun b => by
    have e : (256 - (0 : Int)).toNat = 256 := by decide
    rw [target_eq 0 b (by decide) (by decide), e]
  have hrun : ∀ b : Block, Run 0 (NewProofOfWork 0 b)
      = (0, sha256.Sum256 (prepareHash 0 (NewProofOfWork 0 b) 0)) := fun b => by
    unfold Run
    apply runLoop_hit 0 _ 0 [] maxNonce_pos
    rw [ht]
    exact SetBytes_Sum256_lt _
  refine ⟨ht _, SetBytes_Sum256_lt _, hrun _, ?_, ?_⟩
  · rw [NewBlock_nonce, hrun]
  · rw [NewBlock_Hash, hrun, prepareHash_NewBlock]

/-- Block mined for the payload b at difficulty 1 and clock value 0: the search
stops at nonce 0. -/
theorem NewBlock_sample :
    NewBlock 1 0 [98] []
      = ⟨0, [98], sha256.Sum256 (prepareHash 1 (NewProofOfWork 1 ⟨0, [98], [], [], 0⟩) 0), [], 0⟩ := by
  have hrun : Run 1 (NewProofOfWork 1 ⟨0, [98], [], [], 0⟩)
      = (0, sha256.Sum256 (prepareHash 1 (NewProofOfWork 1 ⟨0, [98], [], [], 0⟩) 0)) := by
    unfold Run
    exact runLoop_hit 1 _ 0 [] maxNonce_pos (by decide!)
  unfold NewBlock
  simp only [hrun]

/-- C10, counterexample. At difficulty 0 the block mined for the payload a, and
at difficulty 1 the block mined for the payload b (clock value 0, empty
previous hash), each with Data replaced by a different payload while Hash and
nonce are kept, still pass Validate at the difficulty they were mined at. -/
theorem tamper_not_detected :
    (([98] : Bytes) ≠ [97] ∧
      Validate 0 (NewProofOfWork 0 { NewBlock 0 0 [97] [] with Data := [98] }) = true) ∧
    (([99] : Bytes) ≠ [98] ∧
      Validate 1 (NewProofOfWork 1 { NewBlock 1 0 [98] [] with Data := [99] }) = true) := by
  refine ⟨⟨by decide, Validate_at_zero _⟩, by decide, ?_⟩
  rw [NewBlock_sample]
  decide!

/-- C10, amended. For every block B produced by NewBlock at a difficulty d in
0..256 whose Data is replaced by another byte sequence while Hash and nonce are
left unchanged, Validate at the same difficulty d returns false exactly when
the SHA-256 digest of the re-encoded tampered header with the unchanged nonce
is not below 2^(256-d); it does not compare anything with the stored Hash. -/
theorem tamper_detected_iff (d now : Int) (data prev tampered : Bytes)
    (h0 : 0 ≤ d) (h1 : d ≤ 256) :
    Validate d (NewProofOfWork d { NewBlock d now data prev with Data := tampered }) = false ↔
      2 ^ (256 - d).toNat ≤
        SetBytes (sha256.Sum256 (prepareHash d
          (NewProofOfWork d { NewBlock d now data prev with Data := tampered })
          (NewBlock d now data prev).nonce)) := by
  rw [← not_lt, ← Bool.not_eq_true, Validate_iff_lt, target_eq _ _ h0 h1]
  rfl

/-- Witness of C10 amended: the payload b replaced by c at difficulty 1. -/
theorem tamper_detected_iff_witness :
    Validate 1 (NewProofOfWork 1 { NewBlock 1 0 [98] [] with Data := [99] }) = false ↔
      2 ^ (256 - (1 : Int)).toNat ≤
        SetBytes (sha256.Sum256 (prepareHash 1
          (NewProofOfWork 1 { NewBlock 1 0 [98] [] with Data := [99] })
          (NewBlock 1 0 [98] []).nonce)) :=
  tamper_detected_iff 1 0 [98] [] [99] (by decide) (by decide)

/-! ### Encoding, construction, search and frame properties -/

theorem unhexDigit_hexDigit (k : Nat) (h : k < 16) : unhexDigit (hexDigit k) = k := by
  interval_cases k <;> rfl

theorem hexDigit_ne_minus (k : Nat) (h : k < 16) : hexDigit k ≠ 45 := by
  interval_cases k <;> decide

/-- Reading the digits of hexNat back gives the number. -/
theorem hexNat_roundtrip (n : Nat) :
    Nat.ofDigits 16 ((hexNat n).reverse.map unhexDigit) = n := by
  unfold hexNat
  split_ifs with h0
  · subst h0; rfl
  · have hmap : ((Nat.digits 16 n).reverse.map hexDigit).reverse.map unhexDigit
        = Nat.digits 16 n := by
      rw [← List.map_reverse, List.reverse_reverse, List.map_map]
      conv_rhs => rw [← List.map_id (Nat.digits 16 n)]
      apply List.map_congr_left
      intro k hk
      exact unhexDigit_hexDigit k (Nat.digits_lt_base (by norm_num) hk)
    rw [hmap, Nat.ofDigits_digits]

theorem hexNat_injective (a b : Nat) (h : hexNat a = hexNat b) : a = b := by
  rw [← hexNat_roundtrip a, ← hexNat_roundtrip b, h]

theorem hexNat_no_minus (n : Nat) : (45 : UInt8) ∉ hexNat n := by
  unfold hexNat
  split_ifs with h0
  · decide
  · intro hmem
    rw [List.mem_map] at hmem
    obtain ⟨k, hk, hk2⟩ := hmem
    rw [List.mem_reverse] at hk
    exact hexDigit_ne_minus k (Nat.digits_lt_base (by norm_num) hk) hk2

theorem hex_injective (a b : Int) (h : hex a = hex b) : a = b := by
  unfold hex at h
  split_ifs at h with ha hb hb
  · have := hexNat_injective _ _ (List.cons.inj h).2
    omega
  · exact absurd (h ▸ List.mem_cons_self 45 _) (hexNat_no_minus _)
  · exact absurd (h ▸ List.mem_cons_self 45 _) (hexNat_no_minus _)
  · have := hexNat_injective _ _ h
    omega

/-- C11. Single-field sensitivity of the encoding: two inputs to prepareHash
(int64 timestamps, difficulties and nonces) that differ in exactly one of the
five fields PreviousHash, Data, Timestamp, difficulty, nonce and agree on the
other four are encoded to different byte sequences. -/
theorem prepareHash_single_field_sensitive (p q : ProofOfWork) (d1 d2 n1 n2 : Int)
    (ht1 : isInt64 p.block.Timestamp) (ht2 : isInt64 q.block.Timestamp)
    (hd1 : isInt64 d1) (hd2 : isInt64 d2) (hn1 : isInt64 n1) (hn2 : isInt64 n2)
    (hone :
      (p.block.PreviousHash ≠ q.block.PreviousHash ∧ p.block.Data = q.block.Data ∧
        p.block.Timestamp = q.block.Timestamp ∧ d1 = d2 ∧ n1 = n2) ∨
      (p.block.PreviousHash = q.block.PreviousHash ∧ p.block.Data ≠ q.block.Data ∧
        p.block.Timestamp = q.block.Timestamp ∧ d1 = d2 ∧ n1 = n2) ∨
      (p.block.PreviousHash = q.block.PreviousHash ∧ p.block.Data = q.block.Data ∧
        p.block.Timestamp ≠ q.block.Timestamp ∧ d1 = d2 ∧ n1 = n2) ∨
      (p.block.PreviousHash = q.block.PreviousHash ∧ p.block.Data = q.block.Data ∧
        p.block.Timestamp = q.block.Timestamp ∧ d1 ≠ d2 ∧ n1 = n2) ∨
      (p.block.PreviousHash = q.block.PreviousHash ∧ p.block.Data = q.block.Data ∧
        p.block.Timestamp = q.block.Timestamp ∧ d1 = d2 ∧ n1 ≠ n2)) :
    prepareHash d1 p n1 ≠ prepareHash d2 q n2 := by
  intro heq
  rw [prepareHash_eq, prepareHash_eq, FormatInt_eq_hex _ ht1.1 ht1.2,
    FormatInt_eq_hex _ ht2.1 ht2.2, FormatInt_eq_hex _ hd1.1 hd1.2,
    FormatInt_eq_hex _ hd2.1 hd2.2, FormatInt_eq_hex _ hn1.1 hn1.2,
    FormatInt_eq_hex _ hn2.1 hn2.2] at heq
  rcases hone with ⟨hp, hda, hts, hd, hn⟩ | ⟨hp, hda, hts, hd, hn⟩ | ⟨hp, hda, hts, hd, hn⟩ |
    ⟨hp, hda, hts, hd, hn⟩ | ⟨hp, hda, hts, hd, hn⟩
  · rw [hda, hts, hd, hn] at heq
    simp only [List.append_assoc] at heq
    exact hp (List.append_cancel_right heq)
  · rw [hp, hts, hd, hn] at heq
    simp only [List.append_assoc] at heq
    exact hda (List.append_cancel_right (List.append_cancel_left heq))
  · rw [hp, hda, hd, hn] at heq
    simp only [List.append_assoc] at heq
    exact hts (hex_injective _ _
      (List.append_cancel_right (List.append_cancel_left (List.append_cancel_left heq))))
  · rw [hp, hda, hts, hn] at heq
    exact hd (hex_injective _ _ (List.append_cancel_left (List.append_cancel_right heq)))
  · rw [hp, hda, hts, hd] at heq
    exact hn (hex_injective _ _ (List.append_cancel_left heq))

/-- Witness of C11: two headers that differ in the timestamp only (1 and 17). -/
theorem prepareHash_single_field_sensitive_witness :
    prepareHash 1 (NewProofOfWork 1 ⟨1, [97], [], [98], 0⟩) 7
      ≠ prepareHash 1 (NewProofOfWork 1 ⟨17, [97], [], [98], 0⟩) 7 :=
  prepareHash_single_field_sensitive (NewProofOfWork 1 ⟨1, [97], [], [98], 0⟩)
    (NewProofOfWork 1 ⟨17, [97], [], [98], 0⟩) 1 1 7 7
    ⟨by decide, by decide⟩ ⟨by decide, by decide⟩ ⟨by decide, by decide⟩
    ⟨by decide, by decide⟩ ⟨by decide, by decide⟩ ⟨by decide, by decide⟩
    (Or.inr (Or.inr (Or.inl ⟨rfl, rfl, by decide, rfl, rfl⟩)))

/-- C12. The encoding is not injective: there are two different input tuples
(PreviousHash, Data, Timestamp, difficulty, nonce) with the same prepareHash
bytes and hence the same digest: the payload 1 with timestamp 0x2, and the
empty payload with timestamp 0x12, both at difficulty 0 and nonce 0, are
encoded to 1200. -/
theorem prepareHash_not_injective :
    ∃ (prev1 data1 : Bytes) (ts1 d1 n1 : Int) (prev2 data2 : Bytes) (ts2 d2 n2 : Int),
      (prev1, data1, ts1, d1, n1) ≠ (prev2, data2, ts2, d2, n2) ∧
      prepareHash d1 (NewProofOfWork d1 ⟨ts1, data1, [], prev1, 0⟩) n1
        = prepareHash d2 (NewProofOfWork d2 ⟨ts2, data2, [], prev2, 0⟩) n2 ∧
      sha256.Sum256 (prepareHash d1 (NewProofOfWork d1 ⟨ts1, data1, [], prev1, 0⟩) n1)
        = sha256.Sum256 (prepareHash d2 (NewProofOfWork d2 ⟨ts2, data2, [], prev2, 0⟩) n2) := by
  have h : prepareHash 0 (NewProofOfWork 0 ⟨2, [49], [], [], 0⟩) 0
      = prepareHash 0 (NewProofOfWork 0 ⟨18, [], [], [], 0⟩) 0 := by decide
  exact ⟨[], [49], 2, 0, 0, [], [], 18, 0, 0, by decide, h, congrArg sha256.Sum256 h⟩

/-- C13, counterexample. At difficulty 256, where the shift amount 256 - 256
is zero, the call of NewProofOfWork signals nothing: it returns the ProofOfWork
object that holds the block and the target 1. -/
theorem NewProofOfWork_accepts_256 :
    Exec.NewProofOfWork 256 ⟨0, [97], [], [], 0⟩
      = some { block := ⟨0, [97], [], [], 0⟩, target := 1 } := by
  decide

/-- C13, amended. A difficulty of at least 256 ends the call of NewProofOfWork
with a run-time error, the panic of big.Int.Lsh, instead of a ProofOfWork
object, except the difficulty 256 itself (shift amount zero): for it the call
returns the object that holds the given block and the target 1. -/
theorem NewProofOfWork_error_above_256 (d : Int) (b : Block) (h : 256 ≤ d)
    (hi : d ≤ 9223372036854775807) :
    Exec.NewProofOfWork d b = if d = 256 then some { block := b, target := 1 } else none := by
  by_cases hd : d = 256
  · rw [if_pos hd, hd, Exec_NewProofOfWork_of_range 256 b (by decide) (by decide)]
    have ht : (NewProofOfWork 256 b).target = 1 := by
      have e : (256 - (256 : Int)).toNat = 0 := by decide
      rw [target_eq 256 b (by decide) (by decide), e]
      rfl
    have hb : (NewProofOfWork 256 b).block = b := rfl
    cases hp : NewProofOfWork 256 b with
    | mk blk tgt =>
      rw [hp] at ht hb
      simp only at ht hb
      rw [ht, hb]
  · rw [if_neg hd]
    exact Exec_NewProofOfWork_above_256 d b (lt_of_le_of_ne h (Ne.symm hd)) hi

/-- Witness of C13 amended: the difficulties 257 and 2^63 - 1 end the call with
the run-time error. -/
theorem NewProofOfWork_error_above_256_witness :
    (Exec.NewProofOfWork 257 ⟨0, [97], [], [], 0⟩
      = if (257 : Int) = 256 then some { block := ⟨0, [97], [], [], 0⟩, target := 1 }
        else none) ∧
    (Exec.NewProofOfWork 9223372036854775807 ⟨0, [97], [], [], 0⟩
      = if (9223372036854775807 : Int) = 256 then
          some { block := ⟨0, [97], [], [], 0⟩, target := 1 }
        else none) :=
  ⟨NewProofOfWork_error_above_256 257 ⟨0, [97], [], [], 0⟩ (by decide) (by decide),
   NewProofOfWork_error_above_256 9223372036854775807 ⟨0, [97], [], [], 0⟩
    (by decide) (by decide)⟩

/-- C14. Run performs a linear search from nonce 0: whenever some nonce in
[0, maxNonce) has a digest strictly below the target, Run returns the least
such nonce n, the returned hash is exactly the 32-byte SHA-256 digest of
prepareHash(n), and every nonce m with 0 <= m < n has a digest greater than or
equal to the target. -/
theorem Run_returns_least_nonce (d : Int) (pow : ProofOfWork)
    (h : ∃ n, 0 ≤ n ∧ n < maxNonce ∧
      SetBytes (sha256.Sum256 (prepareHash d pow n)) < pow.target) :
    (0 ≤ (Run d pow).1 ∧ (Run d pow).1 < maxNonce ∧
      SetBytes (sha256.Sum256 (prepareHash d pow (Run d pow).1)) < pow.target) ∧
    (∀ n, 0 ≤ n → n < maxNonce →
      SetBytes (sha256.Sum256 (prepareHash d pow n)) < pow.target → (Run d pow).1 ≤ n) ∧
    ((Run d pow).2 = sha256.Sum256 (prepareHash d pow (Run d pow).1) ∧
      (Run d pow).2.length = 32) ∧
    (∀ m, 0 ≤ m → m < (Run d pow).1 →
      pow.target ≤ SetBytes (sha256.Sum256 (prepareHash d pow m))) := by
  obtain ⟨hr, hhitr⟩ := Run_hit_of_exists d pow h
  obtain ⟨h0, _, hmiss, hhit, _⟩ :=
    runLoop_spec d pow (maxNonce - 0).toNat 0 [] (le_of_lt maxNonce_pos) rfl
  have hhash : (Run d pow).2 = sha256.Sum256 (prepareHash d pow (Run d pow).1) :=
    (hhit hr).2
  refine ⟨⟨h0, hr, hhitr⟩, ?_, ⟨hhash, ?_⟩, hmiss⟩
  · intro n hn0 _ hn
    by_contra hlt
    have hm : pow.target ≤ digestInt d pow n := hmiss n hn0 (not_le.mp hlt)
    exact absurd hn (not_lt.mpr hm)
  · rw [hhash]
    exact Sum256_length _

/-- Witness of C14: the genesis payload at clock value 1 and difficulty 2, where
nonce 5 meets the target. -/
theorem Run_returns_least_nonce_witness :
    (0 ≤ (Run 2 (NewProofOfWork 2 ⟨1, firstBlockData, [], [], 0⟩)).1 ∧
      (Run 2 (NewProofOfWork 2 ⟨1, firstBlockData, [], [], 0⟩)).1 < maxNonce ∧
      SetBytes (sha256.Sum256 (prepareHash 2 (NewProofOfWork 2 ⟨1, firstBlockData, [], [], 0⟩)
        (Run 2 (NewProofOfWork 2 ⟨1, firstBlockData, [], [], 0⟩)).1))
        < (NewProofOfWork 2 ⟨1, firstBlockData, [], [], 0⟩).target) ∧
    (∀ n, 0 ≤ n → n < maxNonce →
      SetBytes (sha256.Sum256 (prepareHash 2 (NewProofOfWork 2 ⟨1, firstBlockData, [], [], 0⟩) n))
        < (NewProofOfWork 2 ⟨1, firstBlockData, [], [], 0⟩).target →
      (Run 2 (NewProofOfWork 2 ⟨1, firstBlockData, [], [], 0⟩)).1 ≤ n) ∧
    ((Run 2 (NewProofOfWork 2 ⟨1, firstBlockData, [], [], 0⟩)).2
        = sha256.Sum256 (prepareHash 2 (NewProofOfWork 2 ⟨1, firstBlockData, [], [], 0⟩)
          (Run 2 (NewProofOfWork 2 ⟨1, firstBlockData, [], [], 0⟩)).1) ∧
      (Run 2 (NewProofOfWork 2 ⟨1, firstBlockData, [], [], 0⟩)).2.length = 32) ∧
    (∀ m, 0 ≤ m → m < (Run 2 (NewProofOfWork 2 ⟨1, firstBlockData, [], [], 0⟩)).1 →
      (NewProofOfWork 2 ⟨1, firstBlockData, [], [], 0⟩).target
        ≤ SetBytes (sha256.Sum256
          (prepareHash 2 (NewProofOfWork 2 ⟨1, firstBlockData, [], [], 0⟩) m))) :=
  Run_returns_least_nonce 2 (NewProofOfWork 2 ⟨1, firstBlockData, [], [], 0⟩)
    ⟨5, by decide, by decide, by decide!⟩

/-- C15. Mining does not change the header. Run leaves the block it works on
as it is, its Timestamp, Data and PreviousHash in particular, and only computes
its two results; the block a call of NewBlock returns is the header of the
given payload, previous hash and creation time in which only nonce and Hash
are populated, from the results of that Run; at a difficulty in 0..256 the
call does return. -/
theorem mining_preserves_header (d now : Int) (data prev : Bytes) (pow : ProofOfWork) :
    ((Exec.Run d pow).block = pow.block ∧
      (Exec.Run d pow).block.Timestamp = pow.block.Timestamp ∧
      (Exec.Run d pow).block.Data = pow.block.Data ∧
      (Exec.Run d pow).block.PreviousHash = pow.block.PreviousHash) ∧
    ((Exec.Run d pow).nonce, (Exec.Run d pow).hash) = Run d pow ∧
    Exec.NewBlock d now data prev
      = (Exec.NewProofOfWork d ⟨now, data, [], prev, 0⟩).map
          (fun p => { Timestamp := now, Data := data, PreviousHash := prev,
                      nonce := (Exec.Run d p).nonce, Hash := (Exec.Run d p).hash }) ∧
    (∀ B, Exec.NewBlock d now data prev = some B →
      B.Data = data ∧ B.PreviousHash = prev ∧ B.Timestamp = now) ∧
    (0 ≤ d → d ≤ 256 → ∃ B, Exec.NewBlock d now data prev = some B) := by
  have hrun : ∀ p : ProofOfWork, (Exec.Run d p).block = p.block := fun p => by
    rw [Exec_Run_eq]
  have hnew : Exec.NewBlock d now data prev
      = (Exec.NewProofOfWork d ⟨now, data, [], prev, 0⟩).map
          (fun p => { Timestamp := now, Data := data, PreviousHash := prev,
                      nonce := (Exec.Run d p).nonce, Hash := (Exec.Run d p).hash }) := by
    unfold Exec.NewBlock
    simp only
    cases hp : Exec.NewProofOfWork d ⟨now, data, [], prev, 0⟩ with
    | none => rfl
    | some p =>
      have hblock : p.block = ⟨now, data, [], prev, 0⟩ := by
        rw [Exec_NewProofOfWork_some d _ p hp]
        rfl
      simp only [Option.map_some', hrun p, hblock]
  refine ⟨⟨hrun pow, by rw [hrun pow], by rw [hrun pow], by rw [hrun pow]⟩, ?_, hnew, ?_,
    fun h0 h1 => ⟨_, Exec_NewBlock_of_range d now data prev h0 h1⟩⟩
  · rw [Exec_Run_eq]
  · intro B hB
    rw [hnew] at hB
    cases hp : Exec.NewProofOfWork d ⟨now, data, [], prev, 0⟩ with
    | none => rw [hp] at hB; simp at hB
    | some p =>
      rw [hp] at hB
      simp only [Option.map_some', Option.some.injEq] at hB
      rw [← hB]
      exact ⟨rfl, rfl, rfl⟩

/-- C16, counterexample. At difficulty 257 addBlock on the one-block chain of
NewBlockChain (built at difficulty 0) yields no chain: the call of
NewProofOfWork inside NewBlock ends with the panic of big.Int.Lsh. -/
theorem addBlock_fails_at_257 :
    1 ≤ (NewBlockChain 0 0).blocks.length ∧
    Exec.NewBlockChain 0 0 = some (NewBlockChain 0 0) ∧
    addBlock 257 0 (NewBlockChain 0 0) [97] = none :=
  ⟨by decide, Exec_NewBlockChain_of_range 0 0 (by decide) (by decide),
   addBlock_none_above_256 257 0 (NewBlockChain 0 0) [97] (by decide) (by decide)⟩

/-- C16, amended. The chain is append-only: for every chain with n >= 1 blocks
and every payload string, at a difficulty in 0..256, addBlock yields a chain of
exactly n + 1 blocks whose first n blocks are the previous blocks, unchanged
and in the same order, and whose last block carries the bytes of the given
string as Data. -/
theorem addBlock_appends (d now : Int) (bc : BlockChain) (data : Bytes)
    (hne : 1 ≤ bc.blocks.length) (h0 : 0 ≤ d) (h1 : d ≤ 256) :
    ∃ bc1, addBlock d now bc data = some bc1 ∧
      bc1.blocks.length = bc.blocks.length + 1 ∧
      bc1.blocks.take bc.blocks.length = bc.blocks ∧
      ∃ last, bc1.blocks.getLast? = some last ∧ last.Data = data := by
  have hnil : bc.blocks ≠ [] := by
    intro hc
    rw [hc] at hne
    simp at hne
  have hl : bc.blocks.getLast? = some (bc.blocks.getLast hnil) :=
    List.getLast?_eq_getLast _ hnil
  refine ⟨_, addBlock_eq d now bc data _ hl h0 h1, ?_, ?_, ?_⟩
  · simp
  · simp
  · exact ⟨NewBlock d now data (bc.blocks.getLast hnil).Hash, by simp, rfl⟩

/-- Witness of C16 amended: the payload a appended at difficulty 1 to the chain
of NewBlockChain. -/
theorem addBlock_appends_witness :
    ∃ bc1, addBlock 1 1 (NewBlockChain 0 0) [97] = some bc1 ∧
      bc1.blocks.length = (NewBlockChain 0 0).blocks.length + 1 ∧
      bc1.blocks.take (NewBlockChain 0 0).blocks.length = (NewBlockChain 0 0).blocks ∧
      ∃ last, bc1.blocks.getLast? = some last ∧ last.Data = [97] :=
  addBlock_appends 1 1 (NewBlockChain 0 0) [97] (by decide) (by decide) (by decide)

/-- The inputs hashed for the nonces maxNonce - 1 and maxNonce differ. -/
theorem prepareHash_last_ne (d : Int) (pow : ProofOfWork) :
    prepareHash d pow (maxNonce - 1) ≠ prepareHash d pow maxNonce := by
  intro heq
  rw [prepareHash_eq, prepareHash_eq] at heq
  have h := List.append_cancel_left heq
  revert h
  decide

/-- Exhausted search: if no nonce in [0, maxNonce), with maxNonce = 2^63 - 1,
has a digest strictly below the target, Run returns the nonce maxNonce together
with the digest that was computed for the nonce maxNonce - 1, whose hashed
input differs from the one of the nonce maxNonce. -/
theorem Run_exhausted (d : Int) (pow : ProofOfWork)
    (h : ∀ n, 0 ≤ n → n < maxNonce →
      pow.target ≤ SetBytes (sha256.Sum256 (prepareHash d pow n))) :
    maxNonce = 2 ^ 63 - 1 ∧
    Run d pow = (maxNonce, sha256.Sum256 (prepareHash d pow (maxNonce - 1))) ∧
    prepareHash d pow (maxNonce - 1) ≠ prepareHash d pow maxNonce := by
  obtain ⟨h0, hle, _, hhit, hend⟩ :=
    runLoop_spec d pow (maxNonce - 0).toNat 0 [] (le_of_lt maxNonce_pos) rfl
  have hr : (runLoop d pow 0 []).1 = maxNonce := by
    by_contra hne
    have hlt : (runLoop d pow 0 []).1 < maxNonce := lt_of_le_of_ne hle hne
    have hm := h _ h0 hlt
    exact absurd (hhit hlt).1 (not_lt.mpr hm)
  have h2 : (runLoop d pow 0 []).2 = sha256.Sum256 (prepareHash d pow (maxNonce - 1)) :=
    (hend hr).1 maxNonce_pos
  refine ⟨by decide, ?_, prepareHash_last_ne d pow⟩
  unfold Run
  exact Prod.ext hr h2

/-- The target NewProofOfWork computes is at least 1 at every difficulty, so an
exhausted search needs every digest of the nonces below maxNonce to be
non-zero. -/
theorem target_pos (d : Int) (b : Block) : 1 ≤ (NewProofOfWork d b).target := by
  simp only [NewProofOfWork, Lsh, one_mul]
  exact one_le_pow₀ (by norm_num)

/-- C18. Validate does not depend on the stored Hash field: two blocks that
agree on Timestamp, Data, PreviousHash and nonce, whatever their Hash fields,
get the same result from Validate at the same difficulty. -/
theorem Validate_ignores_Hash (d : Int) (b1 b2 : Block)
    (hts : b1.Timestamp = b2.Timestamp) (hda : b1.Data = b2.Data)
    (hprev : b1.PreviousHash = b2.PreviousHash) (hn : b1.nonce = b2.nonce) :
    Validate d (NewProofOfWork d b1) = Validate d (NewProofOfWork d b2) := by
  have hp : prepareHash d (NewProofOfWork d b1) b1.nonce
      = prepareHash d (NewProofOfWork d b2) b2.nonce := by
    rw [hn]
    exact prepareHash_header d (NewProofOfWork d b1) (NewProofOfWork d b2) b2.nonce
      hprev hda hts
  have ht : (NewProofOfWork d b1).target = (NewProofOfWork d b2).target := rfl
  have hb1 : (NewProofOfWork d b1).block = b1 := rfl
  have hb2 : (NewProofOfWork d b2).block = b2 := rfl
  unfold Validate
  simp only [hb1, hb2, hp, ht]

/-- Witness of C18: the genesis header at difficulty 2 with an empty Hash and
with the Hash bytes 1, 2, 3. -/
theorem Validate_ignores_Hash_witness :
    Validate 2 (NewProofOfWork 2 ⟨0, firstBlockData, [1, 2, 3], [], 0⟩)
      = Validate 2 (NewProofOfWork 2 ⟨0, firstBlockData, [], [], 0⟩) :=
  Validate_ignores_Hash 2 ⟨0, firstBlockData, [1, 2, 3], [], 0⟩ ⟨0, firstBlockData, [], [], 0⟩
    rfl rfl rfl rfl

end Blockchain
